import Mathlib

/-!
Shallow embedding of `helix-term/src/handlers/completion/word.rs` — the
viewport word-mining completion provider — together with proofs about its
range-merging, prefix location, scanning and staleness-filter logic.

Buffers are embedded as `List Char`; each `Char` stands for one grapheme
cluster (all concrete examples in this development are ASCII, where the two
notions coincide).  Rust `usize` values are `Nat`; a Rust character access
that would panic is embedded as an `Option` returning `none`.
-/

namespace WordCompletion

/-- Half-open character/line range `start..stop`, embedding Rust's
`Range<usize>`.  (`stop` stands for the Rust field `end`, a Lean keyword.) -/
structure RangeN where
  start : Nat
  stop : Nat
deriving DecidableEq, Repr

/-- Embeds `range_overlaps` (word.rs lines 207-210):
`a.start == b.start || (a.end > b.start && b.end > a.start)`. -/
def rangeOverlaps (a b : RangeN) : Bool :=
  a.start == b.start || (decide (b.start < a.stop) && decide (a.start < b.stop))

/-- Embeds `range_union` (word.rs lines 212-216):
`min(starts) .. max(ends)`. -/
def rangeUnion (a b : RangeN) : RangeN :=
  ⟨min a.start b.start, max a.stop b.stop⟩

/-- Embeds the `and_modify` merge-on-insert loop of `completion`
(word.rs lines 103-122): scan the list, replace the first range that
overlaps the new one with their union and stop; if none overlaps, append.
The `[]` case embeds `or_insert_with(.. vec![start..end])`. -/
def insertRange : List RangeN → RangeN → List RangeN
  | [], r => [r]
  | x :: xs, r =>
    if rangeOverlaps r x then rangeUnion r x :: xs else x :: insertRange xs r

/-- A range list is normalized when no two of its members satisfy the
overlap predicate (spec §3, MergedRangeSet invariant). -/
def normalized : List RangeN → Bool
  | [] => true
  | r :: rs => rs.all (fun s => !rangeOverlaps r s) && normalized rs

/-- A well-formed half-open range: `start ≤ stop`. -/
def RangeN.WF (r : RangeN) : Prop := r.start ≤ r.stop

theorem rangeOverlaps_iff (a b : RangeN) :
    rangeOverlaps a b = true ↔
      a.start = b.start ∨ (b.start < a.stop ∧ a.start < b.stop) := by
  simp [rangeOverlaps]

theorem rangeOverlaps_comm (a b : RangeN) :
    rangeOverlaps a b = rangeOverlaps b a := by
  rcases h : rangeOverlaps b a with _ | _
  · rw [Bool.eq_false_iff]
    intro hab
    rw [Bool.eq_false_iff] at h
    apply h
    rw [rangeOverlaps_iff] at hab ⊢
    omega
  · rw [rangeOverlaps_iff] at h ⊢
    omega

theorem normalized_cons {r : RangeN} {rs : List RangeN} :
    normalized (r :: rs) = true ↔
      (∀ s ∈ rs, rangeOverlaps r s = false) ∧ normalized rs = true := by
  simp [normalized, List.all_eq_true]

/-- Key preservation step: if the new range `r` overlapped `x` but not `y`,
and `x` did not overlap `y`, then the union of `r` and `x` still does not
overlap `y` (for well-formed `y`). -/
theorem rangeUnion_not_overlaps {r x y : RangeN} (hy : y.WF)
    (hrx : rangeOverlaps r x = true) (hry : rangeOverlaps r y = false)
    (hxy : rangeOverlaps x y = false) :
    rangeOverlaps (rangeUnion r x) y = false := by
  rw [Bool.eq_false_iff, Ne, rangeOverlaps_iff] at hry hxy ⊢
  rw [rangeOverlaps_iff] at hrx
  push_neg at hry hxy
  push_neg
  unfold rangeUnion RangeN.WF at *
  dsimp at *
  omega

/-- Every member of `insertRange rs r` is a member of `rs`, is `r` itself,
or is the union of `r` with some member of `rs` it overlaps. -/
theorem mem_insertRange {rs : List RangeN} {r w : RangeN}
    (hw : w ∈ insertRange rs r) :
    w ∈ rs ∨ w = r ∨ ∃ z ∈ rs, rangeOverlaps r z = true ∧ w = rangeUnion r z := by
  induction rs with
  | nil =>
    simp [insertRange] at hw
    exact Or.inr (Or.inl hw)
  | cons x xs ih =>
    by_cases hov : rangeOverlaps r x = true
    · simp only [insertRange, hov, if_pos] at hw
      rcases List.mem_cons.mp hw with h | h
      · exact Or.inr (Or.inr ⟨x, List.mem_cons_self x xs, hov, h⟩)
      · exact Or.inl (List.mem_cons_of_mem x h)
    · simp only [insertRange, hov, if_neg, Bool.not_eq_true] at hw
      rcases List.mem_cons.mp hw with h | h
      · exact Or.inl (h ▸ List.mem_cons_self x xs)
      · rcases ih h with h' | h' | ⟨z, hz, hoz, hw'⟩
        · exact Or.inl (List.mem_cons_of_mem x h')
        · exact Or.inr (Or.inl h')
        · exact Or.inr (Or.inr ⟨z, List.mem_cons_of_mem x hz, hoz, hw'⟩)

/-- C1 (counterexample): the merge-on-insert fold does not keep the list
normalized for every insertion sequence.  Inserting visible ranges
`[0,5)`, `[6,10)`, `[4,7)` in that order yields `[0,7), [6,10)`, whose two
members overlap. -/
theorem c1_counterexample :
    normalized (List.foldl insertRange []
      [RangeN.mk 0 5, RangeN.mk 6 10, RangeN.mk 4 7]) = false := by
  decide

/-- C1 (amended): merge-on-insert keeps a document's range list normalized
provided the inserted range overlaps at most one range already in the list
(as happens when each view contributes a range overlapping at most one
previously collected range); in general an insertion overlapping two
existing ranges can leave the list denormalized (see the counterexample). -/
theorem c1_insertRange_preserves_normalized (rs : List RangeN) (r : RangeN)
    (hwf : ∀ y ∈ rs, y.WF) (hn : normalized rs = true)
    (hcount : rs.countP (fun y => rangeOverlaps r y) ≤ 1) :
    normalized (insertRange rs r) = true := by
  induction rs with
  | nil => simp [insertRange, normalized]
  | cons x xs ih =>
    rw [normalized_cons] at hn
    rw [List.countP_cons] at hcount
    by_cases hov : rangeOverlaps r x = true
    · simp only [insertRange, hov, if_pos]
      rw [normalized_cons]
      simp only [hov, if_pos] at hcount
      have hzero : xs.countP (fun y => rangeOverlaps r y) = 0 := by omega
      rw [List.countP_eq_zero] at hzero
      refine ⟨fun y hy => ?_, hn.2⟩
      refine rangeUnion_not_overlaps (hwf y (List.mem_cons_of_mem x hy)) hov
        ?_ (hn.1 y hy)
      exact Bool.not_eq_true _ ▸ (by simpa using hzero y hy)
    · rw [Bool.not_eq_true] at hov
      simp only [insertRange, hov, Bool.false_eq_true, if_false]
      rw [normalized_cons]
      constructor
      · intro w hw
        rcases mem_insertRange hw with h | h | ⟨z, hz, hoz, hw'⟩
        · exact hn.1 w h
        · rw [h, ← rangeOverlaps_comm]; exact hov
        · rw [hw', ← rangeOverlaps_comm]
          refine rangeUnion_not_overlaps (hwf x (List.mem_cons_self x xs)) hoz
            hov ?_
          rw [← rangeOverlaps_comm]; exact hn.1 z hz
      · refine ih (fun y hy => hwf y (List.mem_cons_of_mem x hy)) hn.2 ?_
        simp only [hov, Bool.false_eq_true, if_false] at hcount
        omega

/-- C1 (witness): a concrete instance of the amended preservation theorem —
inserting `[6,10)` into the normalized list `[[0,5)]` keeps it normalized. -/
theorem c1_witness :
    normalized (insertRange [RangeN.mk 0 5] (RangeN.mk 6 10)) = true :=
  c1_insertRange_preserves_normalized [RangeN.mk 0 5] (RangeN.mk 6 10)
    (by simp [RangeN.WF]) (by decide) (by decide)

/-- A nonempty range contained in a range overlaps it. -/
theorem rangeOverlaps_of_contained {r x : RangeN} (hne : r.start < r.stop)
    (h1 : x.start ≤ r.start) (h2 : r.stop ≤ x.stop) :
    rangeOverlaps r x = true := by
  rw [rangeOverlaps_iff]; omega

/-- If a nonempty range `r` contained in `x` overlaps a well-formed range
`y`, then `x` overlaps `y` as well. -/
theorem rangeOverlaps_of_contained_overlaps {r x y : RangeN}
    (hne : r.start < r.stop) (h1 : x.start ≤ r.start) (h2 : r.stop ≤ x.stop)
    (hy : y.WF) (hov : rangeOverlaps r y = true) :
    rangeOverlaps x y = true := by
  rw [rangeOverlaps_iff] at hov ⊢
  unfold RangeN.WF at hy
  omega

/-- Unioning a range with one that contains it gives back the container. -/
theorem rangeUnion_of_contained {r x : RangeN}
    (h1 : x.start ≤ r.start) (h2 : r.stop ≤ x.stop) :
    rangeUnion r x = x := by
  cases x with
  | mk s e =>
    dsimp at h1 h2
    simp only [rangeUnion, RangeN.mk.injEq]
    exact ⟨min_eq_right h1, max_eq_right h2⟩

/-- C3 (counterexample): merging is not order-independent.  The insertion
sequences `[0,5), [6,10), [4,7)` and its permutation `[4,7), [6,10), [0,5)`
yield different range lists (`[0,7), [6,10)` versus `[0,10)`). -/
theorem c3_counterexample :
    List.foldl insertRange []
        [RangeN.mk 0 5, RangeN.mk 6 10, RangeN.mk 4 7] ≠
      List.foldl insertRange []
        [RangeN.mk 4 7, RangeN.mk 6 10, RangeN.mk 0 5] ∧
    List.Perm [RangeN.mk 0 5, RangeN.mk 6 10, RangeN.mk 4 7]
      [RangeN.mk 4 7, RangeN.mk 6 10, RangeN.mk 0 5] := by
  constructor
  · decide
  · decide

/-- C3 (amended): range merging is idempotent — inserting a nonempty range
already contained in a member of a normalized well-formed list leaves the
list unchanged (in particular `[0,5)` then `[2,4)` yields the single range
`[0,5)`), and inserting `[0,5)`, `[3,8)`, `[8,10)` into an empty set yields
exactly `[0,8)` and `[8,10)`, the touching pair left unmerged; merging is
not order-independent in general (see the counterexample). -/
theorem c3_insertRange_idempotent (rs : List RangeN) (r x : RangeN)
    (hwf : ∀ y ∈ rs, y.WF) (hn : normalized rs = true)
    (hne : r.start < r.stop) (hx : x ∈ rs)
    (h1 : x.start ≤ r.start) (h2 : r.stop ≤ x.stop) :
    insertRange rs r = rs ∧
    List.foldl insertRange [] [RangeN.mk 0 5, RangeN.mk 2 4] =
      [RangeN.mk 0 5] ∧
    List.foldl insertRange []
        [RangeN.mk 0 5, RangeN.mk 3 8, RangeN.mk 8 10] =
      [RangeN.mk 0 8, RangeN.mk 8 10] := by
  refine ⟨?_, by decide, by decide⟩
  induction rs with
  | nil => cases hx
  | cons y ys ih =>
    rw [normalized_cons] at hn
    by_cases hov : rangeOverlaps r y = true
    · have hxy : x = y := by
        rcases List.mem_cons.mp hx with h | h
        · exact h
        · exfalso
          have hxovy : rangeOverlaps x y = true :=
            rangeOverlaps_of_contained_overlaps hne h1 h2
              (hwf y (List.mem_cons_self y ys)) hov
          have := hn.1 x h
          rw [← rangeOverlaps_comm] at this
          rw [this] at hxovy
          exact Bool.false_ne_true hxovy
      subst hxy
      simp only [insertRange, hov, if_pos]
      rw [rangeUnion_of_contained h1 h2]
    · have hxys : x ∈ ys := by
        rcases List.mem_cons.mp hx with h | h
        · exfalso
          subst h
          rw [rangeOverlaps_of_contained hne h1 h2] at hov
          exact hov rfl
        · exact h
      rw [Bool.not_eq_true] at hov
      simp only [insertRange, hov, Bool.false_eq_true, if_false]
      rw [ih (fun z hz => hwf z (List.mem_cons_of_mem y hz)) hn.2 hxys]

/-- C3 (witness): concrete instance — inserting `[2,4)` into `[[0,5)]`
leaves the list unchanged, and the two worked examples compute as stated. -/
theorem c3_witness :
    insertRange [RangeN.mk 0 5] (RangeN.mk 2 4) = [RangeN.mk 0 5] ∧
    List.foldl insertRange [] [RangeN.mk 0 5, RangeN.mk 2 4] =
      [RangeN.mk 0 5] ∧
    List.foldl insertRange []
        [RangeN.mk 0 5, RangeN.mk 3 8, RangeN.mk 8 10] =
      [RangeN.mk 0 8, RangeN.mk 8 10] :=
  c3_insertRange_idempotent [RangeN.mk 0 5] (RangeN.mk 2 4) (RangeN.mk 0 5)
    (by simp [RangeN.WF]) (by decide) (by decide)
    (List.mem_singleton.mpr rfl) (by decide) (by decide)

/-- C7: the shared overlap predicate holds iff the two half-open ranges
have the same start (including zero-width coincidence) or strictly
interpenetrate; ranges that merely touch at an endpoint with different
starts do not overlap. -/
theorem c7_rangeOverlaps_characterization (a b : RangeN) :
    (rangeOverlaps a b = true ↔
      a.start = b.start ∨ (a.stop > b.start ∧ b.stop > a.start)) ∧
    (a.stop = b.start → a.start ≠ b.start → rangeOverlaps a b = false) := by
  constructor
  · rw [rangeOverlaps_iff]
  · intro htouch hne
    rw [Bool.eq_false_iff, Ne, rangeOverlaps_iff]
    omega

/-- C7 (witness): `[0,5)` and `[5,9)` touch at 5 with different starts and
do not overlap; `[2,2)` and `[2,7)` share a start and do overlap. -/
theorem c7_witness :
    rangeOverlaps (RangeN.mk 0 5) (RangeN.mk 5 9) = false ∧
    rangeOverlaps (RangeN.mk 2 2) (RangeN.mk 2 7) = true :=
  ⟨(c7_rangeOverlaps_characterization (RangeN.mk 0 5) (RangeN.mk 5 9)).2
      rfl (by decide),
   (c7_rangeOverlaps_characterization (RangeN.mk 2 2) (RangeN.mk 2 7)).1.mpr
      (Or.inl rfl)⟩

/-- Modelled from the spec: helix-core's language-agnostic word-character
predicate (`chars::char_is_word`, not under src/): alphanumeric or
underscore. -/
def charIsWord (c : Char) : Bool := c.isAlphanum || c == '_'

/-- Slice of a buffer over a half-open character range, embedding
`text.slice(start..stop)`. -/
def sliceL (text : List Char) (r : RangeN) : List Char :=
  (text.drop r.start).take (r.stop - r.start)

/-- Modelled from the spec: the trigger kinds of `super::request::TriggerKind`
(not under src/) as far as this module distinguishes them — a manually
invoked trigger versus any automatic one. -/
inductive TriggerKind where
  | Manual
  | Automatic
deriving DecidableEq, Repr

/-- Embeds the minimum-word-length choice (word.rs lines 56-59):
2 grapheme clusters for `TriggerKind::Manual`, 8 for anything else. -/
def minWordLen : TriggerKind → Nat
  | .Manual => 2
  | .Automatic => 8

/-- Modelled from the spec: skipping backward from position `i` over
characters satisfying `p`, a building block of the "previous word start"
motion (helix-core `movement`, not under src/). -/
def skipBackWhile (text : List Char) (p : Char → Bool) : Nat → Nat
  | 0 => 0
  | i + 1 =>
    match text[i]? with
    | some c => if p c then skipBackWhile text p i else i + 1
    | none => i + 1

/-- Modelled from the spec: the "start-of-previous-word" motion
(`movement::move_prev_word_start`, not under src/): from `pos`, skip
whitespace backward, then skip backward over the run of word characters
(or of non-word punctuation) ending there.  When nothing can be skipped
the head stays at `pos`. -/
def movePrevWordStart (text : List Char) (pos : Nat) : Nat :=
  match text[skipBackWhile text Char.isWhitespace pos - 1]? with
  | none => skipBackWhile text Char.isWhitespace pos
  | some c =>
    if charIsWord c then
      skipBackWhile text charIsWord (skipBackWhile text Char.isWhitespace pos)
    else
      skipBackWhile text (fun c => !charIsWord c && !c.isWhitespace)
        (skipBackWhile text Char.isWhitespace pos)

/-- Embeds the `edit_diff` computation (word.rs lines 85-94): inspect the
last character of the typed range (index `len_chars().saturating_sub(1)`);
whitespace means nothing is erased, otherwise the whole typed range is.
`RopeSlice::char` panics when the index is out of bounds (empty slice);
that access is embedded as `none`. -/
def editDiffO (text : List Char) (typed : RangeN) : Option Nat :=
  match (sliceL text typed)[(sliceL text typed).length - 1]? with
  | none => none
  | some c =>
    some (if c.isWhitespace then 0 else (sliceL text typed).length)

/-- Models the per-selection-range change built by
`Transaction::change_by_selection` (word.rs lines 175-178):
`(cursor - edit_diff, cursor, Some(word))`.  The subtraction is Rust
`usize` subtraction, which panics on underflow in debug builds; the
underflowing case is embedded as `none`. -/
def transactionChange (cursor editDiff : Nat) : Option (Nat × Nat) :=
  if cursor < editDiff then none else some (cursor - editDiff, cursor)

/-- Applying the word-completion change at one cursor of the selection:
replace the `editDiff` characters before `cursor` with the candidate. -/
def applyEdit (text : List Char) (cursor editDiff : Nat) (w : List Char) :
    List Char :=
  text.take (cursor - editDiff) ++ w ++ text.drop cursor

/-- Embeds the backward qualifying test of the word scanner (word.rs lines
145-151): `text.slice(..head).graphemes_rev().take(min).take_while(all
word chars).count() == min`, graphemes modelled as characters. -/
def qualifies (text : List Char) (minWL : Nat) (head : Nat) : Bool :=
  ((((text.take head).reverse).take minWL).takeWhile charIsWord).length
    == minWL

/-- Embeds the forward prefix test of the entry point (word.rs lines
74-80): `text.slice(head..).graphemes().take(min).take_while(all word
chars).count()`, graphemes modelled as characters. -/
def wordRunFrom (text : List Char) (head minWL : Nat) : Nat :=
  (((text.drop head).take minWL).takeWhile charIsWord).length

/-- Modelled from the spec: skipping forward from position `i` over
characters satisfying `p` (building block of the "next word end" motion,
helix-core `movement`, not under src/). -/
def skipFwdWhile (text : List Char) (p : Char → Bool) (i : Nat) : Nat :=
  i + ((text.drop i).takeWhile p).length

/-- Modelled from the spec: the "end-of-next-word" motion
(`movement::move_next_word_end`, not under src/): the anchor moves to the
old head, the head skips whitespace and then the following run of word
characters (or of non-word punctuation). -/
def moveNextWordEnd (text : List Char) (head : Nat) : Nat × Nat :=
  let s := skipFwdWhile text (fun c => c.isWhitespace) head
  match text[s]? with
  | none => (head, s)
  | some c =>
    if charIsWord c then (head, skipFwdWhile text charIsWord s)
    else (head, skipFwdWhile text (fun c => !charIsWord c && !c.isWhitespace) s)

/-- Insertion into the ordered candidate set, embedding
`BTreeSet::insert` on `BTreeSet<String>`: keeps the list sorted and
duplicate-free. -/
def insertWord (w : String) : List String → List String
  | [] => [w]
  | x :: xs =>
    if w = x then x :: xs
    else if w < x then w :: x :: xs
    else x :: insertWord w xs

/-- The substring of the buffer over a range, as the `String` stored in
the candidate set (`text.slice(word_range).to_string()`). -/
def sliceStr (text : List Char) (r : RangeN) : String :=
  String.mk (sliceL text r)

/-- The scanner's cursor state plus the candidate set accumulated so far
(`cursor` and `words` in the deferred closure, word.rs lines 130-168). -/
structure ScanState where
  anchor : Nat
  head : Nat
  words : List String
deriving Repr

/-- Embeds the anchor fix-up of word.rs lines 153-156: advance the anchor
past leading non-word characters. -/
def occAnchor (text : List Char) (anchor : Nat) : Nat :=
  anchor + ((text.drop anchor).takeWhile (fun c => !charIsWord c)).length

/-- The word-occurrence range `cursor.anchor..cursor.head` (after the
anchor fix-up) under consideration at a scan state (word.rs line 157). -/
def occRange (text : List Char) (st : ScanState) : RangeN :=
  ⟨occAnchor text st.anchor, st.head⟩

/-- One iteration of the scanner loop body (word.rs lines 144-167): if the
backward run test qualifies the head, fix up the anchor, and insert the
occurrence's text into the candidate set unless its range overlaps the
typed-word range; then advance via the "next word end" motion. -/
def scanStep (text : List Char) (minWL : Nat) (typed : RangeN)
    (st : ScanState) : ScanState :=
  if qualifies text minWL st.head then
    let wr := occRange text st
    let words :=
      if !rangeOverlaps typed wr then insertWord (sliceStr text wr) st.words
      else st.words
    let next := moveNextWordEnd text st.head
    ⟨next.1, next.2, words⟩
  else
    let next := moveNextWordEnd text st.head
    ⟨next.1, next.2, st.words⟩

/-- The scanner loop over one merged range (word.rs lines 144-168),
fuel-bounded: iterate `scanStep` while the head is before the range end. -/
def scanRange (text : List Char) (minWL : Nat) (typed : RangeN)
    (stop : Nat) : Nat → ScanState → List String
  | 0, st => st.words
  | fuel + 1, st =>
    if st.head < stop then
      scanRange text minWL typed stop fuel (scanStep text minWL typed st)
    else st.words

/-- Sorted association-list insertion of one view's visible range into the
per-document map, embedding the `BTreeMap` `entry`/`and_modify`/
`or_insert_with` of word.rs lines 103-122 (document ids as `Nat`,
snapshots left to the surrounding state). -/
def insertDoc : List (Nat × List RangeN) → Nat → RangeN →
    List (Nat × List RangeN)
  | [], d, r => [(d, [r])]
  | (k, rs) :: m, d, r =>
    if d = k then (k, insertRange rs r) :: m
    else if d < k then (d, [r]) :: (k, rs) :: m
    else (k, rs) :: insertDoc m d r

/-- The fold over `editor.tree.views()` (word.rs lines 96-123): each view
contributes its document id and visible line range. -/
def collectViewRanges (views : List (Nat × RangeN)) :
    List (Nat × List RangeN) :=
  views.foldl (fun m v => insertDoc m v.1 v.2) []

/-- The data captured by the deferred closure that the entry point
returns (word.rs lines 129-204): the typed-word range, the edit diff, the
collected per-document ranges and the minimum word length. -/
structure Deferred where
  typed : RangeN
  editDiff : Nat
  ranges : List (Nat × List RangeN)
  minWL : Nat
deriving Repr

/-- The slice of editor state read by the entry point: trigger kind,
primary-cursor position and text of the focused document, the cancellation
flag of the task handle, and every open view's document id and visible
line range. -/
structure EditorState where
  triggerKind : TriggerKind
  text : List Char
  pos : Nat
  canceled : Bool
  views : List (Nat × RangeN)

/-- Embeds the entry point `completion` (word.rs lines 49-205) up to the
construction of the deferred closure: backward word-boundary search, the
automatic-trigger minimum-length guard, the edit-diff computation, the
visible-range collection and the single cancellation poll.  The `none`
arm of the edit-diff match embeds the panicking character access, shown
unreachable in `editDiffO_isSome_of_moved`. -/
def completion (st : EditorState) : Option Deferred :=
  let minWL := minWordLen st.triggerKind
  let pos := st.pos
  let head := movePrevWordStart st.text pos
  if head = pos then none
  else if st.triggerKind ≠ TriggerKind.Manual ∧
      wordRunFrom st.text head minWL ≠ minWL then none
  else
    let typed : RangeN := ⟨head, pos⟩
    match editDiffO st.text typed with
    | none => none
    | some d =>
      let ranges := collectViewRanges st.views
      if st.canceled then none
      else some ⟨typed, d, ranges, minWL⟩

/-- A completion item as far as the staleness filter inspects it: the
`CompletionItem::Other` variant carries its provenance-kind string (the
word provider always stores the borrowed constant `"word"`, embedded as
string equality), every other variant is opaque. -/
inductive WItem where
  | other (kind : String) (label : String)
  | lsp (label : String)
deriving DecidableEq, Repr

/-- The pattern of word.rs lines 38-44: is this item an `Other` item whose
kind is the word-provider constant? -/
def isWordKindItem : WItem → Bool
  | .other k _ => k == "word"
  | .lsp _ => false

/-- Embeds `retain_valid_completions` (word.rs lines 23-47): a no-op for a
manual trigger; otherwise, when the character at `cursor.saturating_sub 1`
is whitespace, retain only the non-word items.  The out-of-bounds
character access (`RopeSlice::char` panics) is embedded as `none`. -/
def retainValidCompletions (trigger : TriggerKind) (text : List Char)
    (cursor : Nat) (items : List WItem) : Option (List WItem) :=
  if trigger = TriggerKind.Manual then some items
  else
    match text[cursor - 1]? with
    | none => none
    | some c =>
      some (if c.isWhitespace then
              items.filter (fun it => !isWordKindItem it)
            else items)

theorem skipBackWhile_le (text : List Char) (p : Char → Bool) :
    ∀ i, skipBackWhile text p i ≤ i := by
  intro i
  induction i with
  | zero => simp [skipBackWhile]
  | succ n ih =>
    unfold skipBackWhile
    cases text[n]? with
    | none => simp
    | some c =>
      by_cases hp : p c = true
      · simp only [hp, if_pos]
        omega
      · rw [Bool.not_eq_true] at hp
        simp [hp]

theorem movePrevWordStart_le (text : List Char) (pos : Nat) :
    movePrevWordStart text pos ≤ pos := by
  have hj := skipBackWhile_le text Char.isWhitespace pos
  unfold movePrevWordStart
  cases text[skipBackWhile text Char.isWhitespace pos - 1]? with
  | none => exact hj
  | some c =>
    by_cases hw : charIsWord c = true
    · simp only [hw, if_pos]
      exact le_trans (skipBackWhile_le text charIsWord _) hj
    · rw [Bool.not_eq_true] at hw
      simp only [hw, Bool.false_eq_true, if_false]
      exact le_trans (skipBackWhile_le text _ _) hj

theorem movePrevWordStart_of_len_lt (text : List Char) (pos : Nat)
    (h : text.length < pos) : movePrevWordStart text pos = pos := by
  obtain ⟨i, rfl⟩ : ∃ i, pos = i + 1 := ⟨pos - 1, by omega⟩
  have hnone : text[i]? = none := by
    rw [List.getElem?_eq_none_iff]
    omega
  have hskip : skipBackWhile text Char.isWhitespace (i + 1) = i + 1 := by
    unfold skipBackWhile
    rw [hnone]
  unfold movePrevWordStart
  rw [hskip, Nat.add_sub_cancel, hnone]

theorem sliceL_length (text : List Char) (r : RangeN)
    (h : r.stop ≤ text.length) :
    (sliceL text r).length = r.stop - r.start := by
  simp only [sliceL, List.length_take, List.length_drop]
  omega

/-- The character access inside the edit-diff computation cannot fail once
the backward motion has moved the head strictly before `pos` and `pos`
lies within the buffer. -/
theorem editDiffO_isSome_of_moved {text : List Char} {head pos : Nat}
    (hlt : head < pos) (hle : pos ≤ text.length) :
    (editDiffO text ⟨head, pos⟩).isSome = true := by
  have hlen : (sliceL text ⟨head, pos⟩).length = pos - head :=
    sliceL_length text ⟨head, pos⟩ hle
  have hidx : (sliceL text ⟨head, pos⟩).length - 1 <
      (sliceL text ⟨head, pos⟩).length := by omega
  unfold editDiffO
  cases hc : (sliceL text ⟨head, pos⟩)[(sliceL text ⟨head, pos⟩).length - 1]? with
  | none =>
    rw [List.getElem?_eq_none_iff] at hc
    omega
  | some c => simp

/-- C10: whenever the entry point proceeds past the backward word-boundary
check (the motion moved the head), the typed range `head..pos` is nonempty
(`head < pos`), and the last-character whitespace test of the edit-diff
computation examines a character that lies inside the typed fragment (the
character access succeeds). -/
theorem c10_typed_range_nonempty (text : List Char) (pos : Nat)
    (h : movePrevWordStart text pos ≠ pos) :
    movePrevWordStart text pos < pos ∧
    (editDiffO text ⟨movePrevWordStart text pos, pos⟩).isSome = true := by
  have hle := movePrevWordStart_le text pos
  have hlt : movePrevWordStart text pos < pos := lt_of_le_of_ne hle h
  have hpos : pos ≤ text.length := by
    by_contra hgt
    push_neg at hgt
    exact h (movePrevWordStart_of_len_lt text pos hgt)
  exact ⟨hlt, editDiffO_isSome_of_moved hlt hpos⟩

/-- C10 (witness): in `"hello wo"` with the cursor at 8 the motion stops
at 6, the typed range is nonempty and the edit-diff access succeeds. -/
theorem c10_witness :
    movePrevWordStart "hello wo".toList 8 < 8 ∧
    (editDiffO "hello wo".toList
      ⟨movePrevWordStart "hello wo".toList 8, 8⟩).isSome = true :=
  c10_typed_range_nonempty "hello wo".toList 8 (by decide)

/-- C5: the entry point returns no deferred computation exactly when the
backward word-boundary search does not move the head, or the trigger is
non-manual and the word-character run from the boundary is shorter than
the minimum word length, or the cancellation handle reports canceled at
its single poll after range collection. -/
theorem c5_completion_none_iff (st : EditorState) :
    completion st = none ↔
      movePrevWordStart st.text st.pos = st.pos ∨
      (st.triggerKind ≠ TriggerKind.Manual ∧
        wordRunFrom st.text (movePrevWordStart st.text st.pos)
          (minWordLen st.triggerKind) ≠ minWordLen st.triggerKind) ∨
      st.canceled = true := by
  unfold completion
  by_cases h1 : movePrevWordStart st.text st.pos = st.pos
  · simp [h1]
  · by_cases h2 : st.triggerKind ≠ TriggerKind.Manual ∧
        wordRunFrom st.text (movePrevWordStart st.text st.pos)
          (minWordLen st.triggerKind) ≠ minWordLen st.triggerKind
    · simp [h1, h2]
    · have hlt : movePrevWordStart st.text st.pos < st.pos :=
        lt_of_le_of_ne (movePrevWordStart_le _ _) h1
      have hpos : st.pos ≤ st.text.length := by
        by_contra hgt
        push_neg at hgt
        exact h1 (movePrevWordStart_of_len_lt _ _ hgt)
      obtain ⟨d, hd⟩ := Option.isSome_iff_exists.mp
        (editDiffO_isSome_of_moved hlt hpos)
      rcases hcanc : st.canceled with _ | _
      · simp [h1, h2, hd, hcanc]
      · simp [h1, h2, hd, hcanc]

/-- C5 (witness): with an empty buffer and the cursor at 0 the motion
cannot move, so the entry point returns nothing. -/
theorem c5_witness :
    completion ⟨TriggerKind.Manual, [], 0, false, []⟩ = none :=
  (c5_completion_none_iff ⟨TriggerKind.Manual, [], 0, false, []⟩).mpr
    (Or.inl rfl)

/-- C6: `edit_diff` is 0 when the last character of the typed range is
whitespace and otherwise equals the character count of the typed range;
the transaction replaces exactly the `edit_diff` characters before each
selection cursor; concretely, in `"hello wo"` with the cursor at end of
buffer the fragment is `"wo"`, `edit_diff = 2`, and accepting `"world"`
produces `"hello world"`. -/
theorem c6_editDiff_spec (text : List Char) (r : RangeN) (c : Char)
    (hle : r.stop ≤ text.length)
    (hc : (sliceL text r)[(sliceL text r).length - 1]? = some c) :
    editDiffO text r =
      some (if c.isWhitespace then 0 else r.stop - r.start) ∧
    (∀ cursor d : Nat, d ≤ cursor →
      transactionChange cursor d = some (cursor - d, cursor)) ∧
    movePrevWordStart "hello wo".toList 8 = 6 ∧
    editDiffO "hello wo".toList ⟨6, 8⟩ = some 2 ∧
    applyEdit "hello wo".toList 8 2 "world".toList =
      "hello world".toList := by
  refine ⟨?_, ?_, by decide, by decide, by decide⟩
  · have hlen := sliceL_length text r hle
    have hc2 : (sliceL text r)[r.stop - r.start - 1]? = some c := by
      rwa [hlen] at hc
    simp only [editDiffO, hlen, hc2]
  · intro cursor d hd
    unfold transactionChange
    rw [if_neg (by omega)]

/-- C6 (witness): the general clauses instantiated at `"hello wo"`, typed
range `[6,8)` whose last character is `'o'`, and cursor 8. -/
theorem c6_witness :
    editDiffO "hello wo".toList ⟨6, 8⟩ =
      some (if Char.isWhitespace 'o' then 0 else 8 - 6) ∧
    transactionChange 8 2 = some (8 - 2, 8) :=
  ⟨(c6_editDiff_spec "hello wo".toList ⟨6, 8⟩ 'o' (by decide)
      (by decide)).1,
   (c6_editDiff_spec "hello wo".toList ⟨6, 8⟩ 'o' (by decide)
      (by decide)).2.1 8 2 (by decide)⟩

/-- C2 (code bug): the per-selection-range edit construction subtracts
`edit_diff` from each cursor offset with plain (non-saturating) `usize`
subtraction.  In buffer `"ab cd"` with primary cursor 5 the typed fragment
is `"cd"` and `edit_diff = 2`; a secondary selection cursor at offset 0
makes `cursor - edit_diff` underflow (embedded as `none`), while the
primary cursor's change is well-defined. -/
theorem c2_unsaturated_subtraction :
    movePrevWordStart "ab cd".toList 5 = 3 ∧
    editDiffO "ab cd".toList ⟨3, 5⟩ = some 2 ∧
    transactionChange 5 2 = some (3, 5) ∧
    transactionChange 0 2 = none := by
  refine ⟨by decide, by decide, by decide, by decide⟩

theorem takeWhile_length_le (p : Char → Bool) (l : List Char) :
    (l.takeWhile p).length ≤ l.length := by
  induction l with
  | nil => simp
  | cons x xs ih =>
    rw [List.takeWhile_cons]
    by_cases hp : p x = true
    · simp only [hp, if_pos, List.length_cons]
      omega
    · rw [Bool.not_eq_true] at hp
      simp [hp]

theorem takeWhile_length_eq_iff {p : Char → Bool} {l : List Char} :
    (l.takeWhile p).length = l.length ↔ ∀ a ∈ l, p a = true := by
  induction l with
  | nil => simp
  | cons x xs ih =>
    by_cases hp : p x = true
    · simp [List.takeWhile_cons, hp, ih]
    · rw [Bool.not_eq_true] at hp
      simp only [List.takeWhile_cons, hp, Bool.false_eq_true, if_false,
        List.length_nil, List.length_cons]
      constructor
      · intro h
        omega
      · intro h
        have := h x (List.mem_cons_self x xs)
        rw [hp] at this
        exact absurd this Bool.false_ne_true

/-- The scanner's backward qualifying test holds iff at least `m`
characters precede the head and the `m` characters immediately before the
head are all word characters. -/
theorem qualifies_iff (text : List Char) (m head : Nat) :
    qualifies text m head = true ↔
      m ≤ (text.take head).length ∧
      ∀ c ∈ ((text.take head).reverse).take m, charIsWord c = true := by
  unfold qualifies
  rw [beq_iff_eq]
  have hlen : ((text.take head).reverse).length = (text.take head).length :=
    List.length_reverse _
  have h1 : ((((text.take head).reverse).take m).takeWhile charIsWord).length
      ≤ (((text.take head).reverse).take m).length :=
    takeWhile_length_le _ _
  have h2 : (((text.take head).reverse).take m).length =
      min m ((text.take head).reverse).length := List.length_take m _
  constructor
  · intro h
    have hmin : (((text.take head).reverse).take m).length = m := by omega
    have hall : ((((text.take head).reverse).take m).takeWhile
        charIsWord).length = (((text.take head).reverse).take m).length := by
      omega
    rw [takeWhile_length_eq_iff] at hall
    exact ⟨by omega, hall⟩
  · rintro ⟨hm, hall⟩
    have hmin : (((text.take head).reverse).take m).length = m := by omega
    have : ((((text.take head).reverse).take m).takeWhile
        charIsWord).length = (((text.take head).reverse).take m).length := by
      rw [takeWhile_length_eq_iff]
      exact hall
    omega

/-- C8: the minimum candidate word length is 2 grapheme clusters for a
manual trigger and 8 for an automatic one, and the scanner accepts a head
position as a candidate word boundary exactly when that many grapheme
clusters counted backward from the head exist and are all word
characters. -/
theorem c8_minWordLen_boundary (text : List Char) (k : TriggerKind)
    (head : Nat) :
    minWordLen TriggerKind.Manual = 2 ∧
    minWordLen TriggerKind.Automatic = 8 ∧
    (qualifies text (minWordLen k) head = true ↔
      minWordLen k ≤ (text.take head).length ∧
      ∀ c ∈ ((text.take head).reverse).take (minWordLen k),
        charIsWord c = true) :=
  ⟨rfl, rfl, qualifies_iff text (minWordLen k) head⟩

/-- C8 (witness): in `"hello wo"` the head 8 qualifies under the manual
minimum of 2 (the two characters before it are `"wo"`). -/
theorem c8_witness :
    qualifies "hello wo".toList (minWordLen TriggerKind.Manual) 8 = true :=
  (c8_minWordLen_boundary "hello wo".toList TriggerKind.Manual 8).2.2.mpr
    (by decide)

/-- C4: a scanned word occurrence whose range overlaps the typed-word
range is never inserted into the candidate set, while a qualifying
occurrence that does not overlap it is inserted — identical text elsewhere
is unaffected by the exclusion. -/
theorem c4_typed_word_excluded (text : List Char) (minWL : Nat)
    (typed : RangeN) (st : ScanState) :
    (rangeOverlaps typed (occRange text st) = true →
      (scanStep text minWL typed st).words = st.words) ∧
    (qualifies text minWL st.head = true →
      rangeOverlaps typed (occRange text st) = false →
      (scanStep text minWL typed st).words =
        insertWord (sliceStr text (occRange text st)) st.words) := by
  constructor
  · intro hov
    unfold scanStep
    by_cases hq : qualifies text minWL st.head = true
    · simp [hq, hov]
    · rw [Bool.not_eq_true] at hq
      simp [hq]
  · intro hq hov
    unfold scanStep
    simp [hq, hov]

/-- C4 (witness): in `"ab ab"` with typed range `[3,5)`, the occurrence of
`"ab"` at `[3,5)` (the fragment being typed) is not inserted, while the
identical occurrence at `[0,2)` is. -/
theorem c4_witness :
    (scanStep "ab ab".toList 2 ⟨3, 5⟩ ⟨3, 5, []⟩).words = [] ∧
    (scanStep "ab ab".toList 2 ⟨3, 5⟩ ⟨0, 2, []⟩).words = ["ab"] := by
  constructor
  · exact (c4_typed_word_excluded "ab ab".toList 2 ⟨3, 5⟩ ⟨3, 5, []⟩).1
      (by decide)
  · have h := (c4_typed_word_excluded "ab ab".toList 2 ⟨3, 5⟩ ⟨0, 2, []⟩).2
      (by decide) (by decide)
    rw [h]
    rfl

/-- C9: the staleness filter is a no-op for a manual trigger; for a
non-manual trigger with a whitespace character immediately before the
cursor it retains exactly the non-word-kind items, in order, and with a
non-whitespace character there it keeps everything. -/
theorem c9_staleness_filter (trigger : TriggerKind) (text : List Char)
    (cursor : Nat) (items : List WItem) :
    (trigger = TriggerKind.Manual →
      retainValidCompletions trigger text cursor items = some items) ∧
    (∀ c : Char, trigger ≠ TriggerKind.Manual →
      text[cursor - 1]? = some c → c.isWhitespace = true →
      retainValidCompletions trigger text cursor items =
        some (items.filter (fun it => !isWordKindItem it))) ∧
    (∀ c : Char, trigger ≠ TriggerKind.Manual →
      text[cursor - 1]? = some c → c.isWhitespace = false →
      retainValidCompletions trigger text cursor items = some items) := by
  refine ⟨fun h => by simp [retainValidCompletions, h], ?_, ?_⟩
  · intro c hne hc hw
    simp [retainValidCompletions, hne, hc, hw]
  · intro c hne hc hw
    simp [retainValidCompletions, hne, hc, hw]

/-- C9 (witness): after typing a space (automatic trigger, cursor 2 in
`"a "`), the `"word"`-kind item is dropped and the other items survive in
order; a manual trigger leaves the list untouched. -/
theorem c9_witness :
    retainValidCompletions TriggerKind.Automatic "a ".toList 2
        [WItem.other "word" "foo", WItem.lsp "bar",
          WItem.other "path" "baz"] =
      some [WItem.lsp "bar", WItem.other "path" "baz"] ∧
    retainValidCompletions TriggerKind.Manual "a ".toList 2
        [WItem.other "word" "foo"] = some [WItem.other "word" "foo"] := by
  constructor
  · have h := (c9_staleness_filter TriggerKind.Automatic "a ".toList 2
      [WItem.other "word" "foo", WItem.lsp "bar",
        WItem.other "path" "baz"]).2.1 ' ' (by decide) (by decide) (by decide)
    rw [h]
    rfl
  · exact (c9_staleness_filter TriggerKind.Manual "a ".toList 2
      [WItem.other "word" "foo"]).1 rfl

end WordCompletion
